import Mathlib

/-!
# A DFA parsing / validation / matching library, shallowly embedded

This file embeds the Rust library `dfa` (files `src/lib.rs`, `src/state.rs`)
in Lean 4 and proves properties of it.

Modelling decisions:
* `i32` state identifiers become `Int`; integer parsing (`str::parse::<i32>`)
  is modelled with the `i32` range check made explicit.
* `HashMap k v` becomes an association list `List (k × v)` whose insert
  operation replaces an existing binding in place (so lookup agrees with the
  hash map); `HashSet char` becomes a duplicate-free `List Char` grown by
  membership-checked append.
* A readable stream becomes the list of its lines, each line a `List Char`.
* `str::len()` is the UTF-8 byte length, modelled by `utf8Len`.
* The `unwrap` in `DFA::get_state` can panic; the embedding makes panics
  visible by letting `DFA.is_valid_string` return `Option Bool`, where
  `none` is a panic.
-/

namespace DfaMod

/-- State identifiers are `i32` in the source. -/
abbrev StateId := Int

/-- A DFA state: its outgoing transition map (`state.rs`, `State`). -/
structure State where
  transitions : List (Char × StateId)
  deriving Repr, DecidableEq

/-- `State::new` / `State::default`: no transitions. -/
def State.new : State := ⟨[]⟩

/-- `State::add_transition`: `HashMap::insert`, replacing any existing
binding for the symbol `w` in place, appending otherwise. -/
def State.add_transition (st : State) (w : Char) (new_state : StateId) : State :=
  if st.transitions.any (fun p => p.1 == w) then
    ⟨st.transitions.map (fun p => if p.1 == w then (w, new_state) else p)⟩
  else
    ⟨st.transitions ++ [(w, new_state)]⟩

/-- `State::transition_for`: `HashMap::get`. -/
def State.transition_for (st : State) (w : Char) : Option StateId :=
  (st.transitions.find? (fun p => p.1 == w)).map Prod.snd

/-- `State::num_transitions`. -/
def State.num_transitions (st : State) : Nat :=
  st.transitions.length

/-- Lookup in the states map (`HashMap<i32, State>::get`). -/
def lookupState (states : List (StateId × State)) (i : StateId) : Option State :=
  (states.find? (fun p => p.1 == i)).map Prod.snd

/-- Insert into the states map, replacing an existing binding in place
(`HashMap::insert` / the write-back of `entry(..).or_insert_with(..)`). -/
def statesInsert (states : List (StateId × State)) (i : StateId) (st : State) :
    List (StateId × State) :=
  if states.any (fun p => p.1 == i) then
    states.map (fun p => if p.1 == i then (i, st) else p)
  else
    states ++ [(i, st)]

/-- The frozen automaton (`lib.rs`, `struct DFA`). -/
structure DFA where
  final_states : List StateId
  states : List (StateId × State)
  deriving Repr, DecidableEq

/-- `DFA::get_state` without the `unwrap`: the lookup it performs. -/
def DFA.get_state (d : DFA) (state_id : StateId) : Option State :=
  lookupState d.states state_id

/-- The loop of `DFA::is_valid_string`: current state id and its `State`
object in hand, consume the remaining characters.  `none` models a panic of
the `unwrap` inside `get_state`. -/
def DFA.runFrom (d : DFA) : StateId → State → List Char → Option Bool
  | q, _, [] => some (d.final_states.contains q)
  | _, st, c :: cs =>
    match st.transition_for c with
    | some next_state =>
      match d.get_state next_state with
      | some nst => d.runFrom next_state nst cs
      | none => none
    | none => some false

/-- `DFA::is_valid_string`.  `none` models a panic. -/
def DFA.is_valid_string (d : DFA) (s : List Char) : Option Bool :=
  if s.isEmpty then
    some (d.final_states.contains (0 : StateId))
  else
    match d.get_state 0 with
    | some st => d.runFrom 0 st s
    | none => none

/-- The builder (`lib.rs`, `struct DFABuilder`). -/
structure DFABuilder where
  final_states : List StateId
  states : List (StateId × State)
  alphabet : List Char
  deriving Repr, DecidableEq

/-- `DFABuilder::default`. -/
def DFABuilder.default : DFABuilder := ⟨[], [], []⟩

/-- `enum DFABuilderError` (the source misspells `ExptectedInt`). -/
inductive DFABuilderError where
  | MalformedLine (msg : String)
  | NonIntegralFinalState
  | EmptyStream
  | ExpectedChar
  | ExptectedInt
  deriving Repr, DecidableEq

deriving instance DecidableEq for Except

/-- Decimal value of a digit string (already checked to be all digits). -/
def digitsVal (l : List Char) : Nat :=
  l.foldl (fun a c => a * 10 + (c.toNat - ('0').toNat)) 0

/-- `str::parse::<i32>`: an optional single `+`/`-` sign followed by at
least one ASCII digit, whose value fits in `i32`. -/
def parse_i32 (s : List Char) : Option Int :=
  let signDigits : Int × List Char :=
    match s with
    | '+' :: rest => (1, rest)
    | '-' :: rest => (-1, rest)
    | _ => (1, s)
  let sign := signDigits.1
  let digits := signDigits.2
  if digits.isEmpty then none
  else if digits.all Char.isDigit then
    let v : Int := sign * (digitsVal digits : Int)
    if -(2 ^ 31) ≤ v ∧ v ≤ 2 ^ 31 - 1 then some v else none
  else none

/-- Whitespace for `str::trim` (the characters relevant to this format). -/
def isWhite (c : Char) : Bool :=
  c == ' ' || c == '\t' || c == '\n' || c == '\r'

/-- `str::trim`. -/
def trimChars (l : List Char) : List Char :=
  ((l.dropWhile isWhite).reverse.dropWhile isWhite).reverse

/-- `str::split(' ')`: split at every single space, keeping empty tokens. -/
def splitOnSpace : List Char → List (List Char)
  | [] => [[]]
  | c :: cs =>
    if c == ' ' then [] :: splitOnSpace cs
    else
      match splitOnSpace cs with
      | t :: ts => (c :: t) :: ts
      | [] => [[c]]

/-- UTF-8 byte length of one character (`str::len` counts bytes). -/
def utf8SizeOf (c : Char) : Nat :=
  if c.toNat < 0x80 then 1
  else if c.toNat < 0x800 then 2
  else if c.toNat < 0x10000 then 3
  else 4

/-- UTF-8 byte length of a token (`str::len`). -/
def utf8Len (l : List Char) : Nat :=
  l.foldl (fun n c => n + utf8SizeOf c) 0

/-- `parse_line` (`lib.rs`): split a transition line into components
(dropping tokens that trim to empty), demand exactly three, parse
`(from_state, w, to_state)`. -/
def parse_line (line : List Char) :
    Except DFABuilderError (StateId × Char × StateId) :=
  match (splitOnSpace line).filter (fun x => !(trimChars x).isEmpty) with
  | [c0, c1, c2] =>
    match parse_i32 c0 with
    | none => .error .ExptectedInt
    | some from_state =>
      if utf8Len c1 > 1 then .error .ExpectedChar
      else
        match parse_i32 c2 with
        | none => .error .ExptectedInt
        | some to_state =>
          match c1 with
          | ch :: _ => .ok (from_state, ch, to_state)
          | [] => .error .ExpectedChar
  | _ => .error (.MalformedLine "Expected 3 components in transition line")

/-- `DFABuilder::add_final_state`. -/
def DFABuilder.add_final_state (b : DFABuilder) (state_id : StateId) : DFABuilder :=
  { b with final_states := b.final_states ++ [state_id] }

/-- The header loop of `DFABuilder::from`: parse each token as an `i32`
final state, failing fast with `NonIntegralFinalState`. -/
def addFinalStates : List (List Char) → DFABuilder → Except DFABuilderError DFABuilder
  | [], b => .ok b
  | tok :: toks, b =>
    match parse_i32 tok with
    | some st => addFinalStates toks (b.add_final_state st)
    | none => .error .NonIntegralFinalState

/-- One iteration of the transition loop of `DFABuilder::from`: record the
symbol in the alphabet, fetch or lazily create the `from_state`, add the
transition. -/
def DFABuilder.addTransitionLine (b : DFABuilder) (from_state : StateId) (w : Char)
    (to_state : StateId) : DFABuilder :=
  let alphabet := if b.alphabet.contains w then b.alphabet else b.alphabet ++ [w]
  let st := (lookupState b.states from_state).getD State.new
  let st := st.add_transition w to_state
  { b with alphabet := alphabet, states := statesInsert b.states from_state st }

/-- The transition loop of `DFABuilder::from`: parse each remaining line,
failing fast on the first parse error. -/
def processLines : List (List Char) → DFABuilder → Except DFABuilderError DFABuilder
  | [], b => .ok b
  | line :: rest, b =>
    match parse_line line with
    | .error e => .error e
    | .ok (from_state, w, to_state) =>
      processLines rest (b.addTransitionLine from_state w to_state)

/-- The trimmed, blank-filtered line list of `DFABuilder::from`. -/
def trimFilter (input : List (List Char)) : List (List Char) :=
  (input.map trimChars).filter (fun s => !s.isEmpty)

/-- `DFABuilder::from`, over the list of lines of the stream. -/
def DFABuilder.fromStream (input : List (List Char)) :
    Except DFABuilderError DFABuilder :=
  match trimFilter input with
  | [] => .error .EmptyStream
  | header :: rest =>
    match addFinalStates (splitOnSpace header) DFABuilder.default with
    | .error e => .error e
    | .ok b => processLines rest b

/-- `DFABuilder::build`: the validator.  Check the initial state, a
non-empty final set, then totality over the alphabet and existence of every
transition target; freeze on success. -/
def DFABuilder.build (b : DFABuilder) : Option DFA :=
  if (lookupState b.states 0).isNone then none
  else if b.final_states.length < 1 then none
  else if b.states.all (fun p => b.alphabet.all (fun w =>
      match p.2.transition_for w with
      | none => false
      | some t => (lookupState b.states t).isSome)) then
    some { final_states := b.final_states, states := b.states }
  else
    none

/-! ## Association-map lemmas

`State.add_transition` and `statesInsert` behave like `HashMap::insert`
with respect to the `find?`-based lookups. -/

theorem find?_map_replace {α β : Type} [BEq α] [LawfulBEq α]
    (l : List (α × β)) (w : α) (t : β) (w' : α) (hne : w' ≠ w) :
    (l.map (fun p => if p.1 == w then (w, t) else p)).find? (fun p => p.1 == w') =
      l.find? (fun p => p.1 == w') := by
  induction l with
  | nil => rfl
  | cons p rest ih =>
    rw [List.map_cons]
    by_cases hp : p.1 = w
    · have hfp : (if p.1 == w then (w, t) else p) = (w, t) := if_pos (by simp [hp])
      rw [hfp, List.find?_cons_of_neg _ (by simp [Ne.symm hne]),
        List.find?_cons_of_neg _ (by simp [hp, Ne.symm hne])]
      exact ih
    · have hfp : (if p.1 == w then (w, t) else p) = p := if_neg (by simp [hp])
      rw [hfp]
      by_cases hw' : p.1 = w'
      · rw [List.find?_cons_of_pos _ (by simp [hw']),
          List.find?_cons_of_pos _ (by simp [hw'])]
      · rw [List.find?_cons_of_neg _ (by simp [hw']),
          List.find?_cons_of_neg _ (by simp [hw'])]
        exact ih

theorem find?_replace_self {α β : Type} [BEq α] [LawfulBEq α]
    (l : List (α × β)) (w : α) (t : β)
    (hmem : l.any (fun p => p.1 == w) = true) :
    (l.map (fun p => if p.1 == w then (w, t) else p)).find? (fun p => p.1 == w) =
      some (w, t) := by
  induction l with
  | nil => simp at hmem
  | cons p rest ih =>
    rw [List.map_cons]
    by_cases hp : p.1 = w
    · have hfp : (if p.1 == w then (w, t) else p) = (w, t) := if_pos (by simp [hp])
      rw [hfp, List.find?_cons_of_pos _ (by simp)]
    · simp only [List.any_cons, Bool.or_eq_true, beq_iff_eq] at hmem
      rcases hmem with h | h
      · exact absurd h hp
      · have hfp : (if p.1 == w then (w, t) else p) = p := if_neg (by simp [hp])
        rw [hfp, List.find?_cons_of_neg _ (by simp [hp])]
        exact ih h

theorem find?_none_of_not_any {α β : Type} [BEq α] [LawfulBEq α]
    (l : List (α × β)) (w : α) (hmem : ¬ l.any (fun p => p.1 == w) = true) :
    l.find? (fun p => p.1 == w) = none := by
  rw [List.find?_eq_none]
  intro x hx hb
  exact hmem (List.any_eq_true.mpr ⟨x, hx, hb⟩)

/-- `add_transition` updates exactly the binding of `w`. -/
theorem transition_for_add (st : State) (w : Char) (t : StateId) (w' : Char) :
    (st.add_transition w t).transition_for w' =
      if w' = w then some t else st.transition_for w' := by
  unfold State.add_transition State.transition_for
  by_cases hany : st.transitions.any (fun p => p.1 == w) = true
  · rw [if_pos hany]
    by_cases hw : w' = w
    · subst hw
      rw [if_pos rfl, find?_replace_self st.transitions w' t hany]
      rfl
    · rw [if_neg hw, find?_map_replace st.transitions w t w' hw]
  · rw [if_neg hany]
    by_cases hw : w' = w
    · subst hw
      rw [if_pos rfl, List.find?_append, find?_none_of_not_any st.transitions w' hany]
      simp [List.find?_cons]
    · rw [if_neg hw, List.find?_append]
      have : List.find? (fun p => p.1 == w') [(w, t)] = none := by
        simp [List.find?_cons, Ne.symm hw]
      rw [this, Option.or_none]

/-- `statesInsert` updates exactly the binding of `i`. -/
theorem lookupState_insert (states : List (StateId × State)) (i : StateId) (st : State)
    (j : StateId) :
    lookupState (statesInsert states i st) j =
      if j = i then some st else lookupState states j := by
  unfold statesInsert lookupState
  by_cases hany : states.any (fun p => p.1 == i) = true
  · rw [if_pos hany]
    by_cases hj : j = i
    · subst hj
      rw [if_pos rfl, find?_replace_self states j st hany]
      rfl
    · rw [if_neg hj, find?_map_replace states i st j hj]
  · rw [if_neg hany]
    by_cases hj : j = i
    · subst hj
      rw [if_pos rfl, List.find?_append, find?_none_of_not_any states j hany]
      simp [List.find?_cons]
    · rw [if_neg hj, List.find?_append]
      have : List.find? (fun p => p.1 == j) [(i, st)] = none := by
        simp [List.find?_cons, Ne.symm hj]
      rw [this, Option.or_none]

/-- Entries of `add_transition` come from the old map or are the new pair. -/
theorem mem_add_transition {st : State} {w : Char} {t : StateId} {q : Char × StateId}
    (hq : q ∈ (st.add_transition w t).transitions) :
    q = (w, t) ∨ q ∈ st.transitions := by
  unfold State.add_transition at hq
  by_cases hany : st.transitions.any (fun p => p.1 == w) = true
  · rw [if_pos hany] at hq
    simp only [List.mem_map] at hq
    obtain ⟨p, hp, hpe⟩ := hq
    by_cases hpw : p.1 = w
    · left
      rw [← hpe]
      simp [hpw]
    · right
      rw [← hpe]
      simpa [hpw] using hp
  · rw [if_neg hany] at hq
    simp only [List.mem_append, List.mem_singleton] at hq
    tauto

/-- Entries of `statesInsert` come from the old map or are the new pair. -/
theorem mem_statesInsert {states : List (StateId × State)} {i : StateId} {st : State}
    {p : StateId × State} (hp : p ∈ statesInsert states i st) :
    p = (i, st) ∨ p ∈ states := by
  unfold statesInsert at hp
  by_cases hany : states.any (fun x => x.1 == i) = true
  · rw [if_pos hany] at hp
    simp only [List.mem_map] at hp
    obtain ⟨x, hx, hxe⟩ := hp
    by_cases hxi : x.1 = i
    · left
      rw [← hxe]
      simp [hxi]
    · right
      rw [← hxe]
      simpa [hxi] using hx
  · rw [if_neg hany] at hp
    simp only [List.mem_append, List.mem_singleton] at hp
    tauto

/-- A successful lookup exhibits a member of the map. -/
theorem lookupState_eq_some {states : List (StateId × State)} {i : StateId} {st : State}
    (h : lookupState states i = some st) :
    ∃ p ∈ states, p.1 = i ∧ p.2 = st := by
  unfold lookupState at h
  cases hf : states.find? (fun p => p.1 == i) with
  | none => rw [hf] at h; simp at h
  | some pr =>
    rw [hf] at h
    refine ⟨pr, List.mem_of_find?_eq_some hf, ?_, ?_⟩
    · simpa using List.find?_some hf
    · simpa using h

/-! ## The validator -/

/-- The four invariants of §3 of the specification, read off the builder:
(a) state `0` exists, (b) the final-state set is non-empty, (c) every
declared state has a transition for every symbol of the inferred alphabet,
(d) every such transition's target exists in the states mapping. -/
def BuilderInv (b : DFABuilder) : Prop :=
  (lookupState b.states 0).isSome = true ∧
  b.final_states ≠ [] ∧
  (∀ p ∈ b.states, ∀ w ∈ b.alphabet, (p.2.transition_for w).isSome = true) ∧
  (∀ p ∈ b.states, ∀ w ∈ b.alphabet, ∀ t, p.2.transition_for w = some t →
    (lookupState b.states t).isSome = true)

/-- The same four invariants, read off a frozen automaton (the alphabet is
not stored in the automaton, so it is a parameter). -/
def AutomatonInv (d : DFA) (alphabet : List Char) : Prop :=
  (lookupState d.states 0).isSome = true ∧
  d.final_states ≠ [] ∧
  (∀ p ∈ d.states, ∀ w ∈ alphabet, (p.2.transition_for w).isSome = true) ∧
  (∀ p ∈ d.states, ∀ w ∈ alphabet, ∀ t, p.2.transition_for w = some t →
    (lookupState d.states t).isSome = true)

/-- `build` copies the builder's fields into the frozen automaton. -/
theorem build_eq_some {b : DFABuilder} {d : DFA} (h : b.build = some d) :
    d.final_states = b.final_states ∧ d.states = b.states := by
  unfold DFABuilder.build at h
  split_ifs at h
  cases h
  exact ⟨rfl, rfl⟩

/-- The boolean totality check of `build` decides invariants (c) and (d). -/
theorem build_check_iff (b : DFABuilder) :
    (b.states.all (fun p => b.alphabet.all (fun w =>
      match p.2.transition_for w with
      | none => false
      | some t => (lookupState b.states t).isSome)) = true) ↔
    ((∀ p ∈ b.states, ∀ w ∈ b.alphabet, (p.2.transition_for w).isSome = true) ∧
     (∀ p ∈ b.states, ∀ w ∈ b.alphabet, ∀ t, p.2.transition_for w = some t →
       (lookupState b.states t).isSome = true)) := by
  rw [List.all_eq_true]
  constructor
  · intro h
    constructor
    · intro p hp w hw
      have := List.all_eq_true.mp (h p hp) w hw
      cases ht : p.2.transition_for w
      · rw [ht] at this; simp at this
      · rfl
    · intro p hp w hw t ht
      have := List.all_eq_true.mp (h p hp) w hw
      rw [ht] at this
      exact this
  · intro h p hp
    rw [List.all_eq_true]
    intro w hw
    cases ht : p.2.transition_for w
    · have := h.1 p hp w hw
      rw [ht] at this
      simp at this
    · exact h.2 p hp w hw _ ht

/-- `build` succeeds exactly when the four invariants hold. -/
theorem build_isSome_iff (b : DFABuilder) : b.build.isSome = true ↔ BuilderInv b := by
  unfold DFABuilder.build BuilderInv
  split_ifs with h1 h2 h3
  · constructor
    · intro hs; simp at hs
    · intro hinv
      rw [Option.isNone_iff_eq_none] at h1
      rw [h1] at hinv
      simpa using hinv.1
  · constructor
    · intro hs; simp at hs
    · intro hinv
      have : b.final_states = [] := List.length_eq_zero.mp (Nat.lt_one_iff.mp h2)
      exact (hinv.2.1 this).elim
  · constructor
    · intro _
      refine ⟨?_, ?_, (build_check_iff b).mp h3⟩
      · cases hl : lookupState b.states 0
        · rw [Option.isNone_iff_eq_none.mpr hl] at h1
          exact absurd rfl h1
        · rfl
      · intro hnil
        exact h2 (by simp [hnil])
    · intro _; rfl
  · constructor
    · intro hs; simp at hs
    · intro hinv
      exact (h3 ((build_check_iff b).mpr ⟨hinv.2.2.1, hinv.2.2.2⟩)).elim

/-! ## The header loop -/

/-- Parse every token as an `i32`; `none` when any token fails. -/
def parseAll : List (List Char) → Option (List Int)
  | [] => some []
  | tok :: toks =>
    match parse_i32 tok, parseAll toks with
    | some v, some vs => some (v :: vs)
    | _, _ => none

/-- The header loop succeeds exactly when every token parses as an `i32`,
appending the parsed values to the final-state list, and otherwise fails
with `NonIntegralFinalState`. -/
theorem addFinalStates_spec (toks : List (List Char)) : ∀ b : DFABuilder,
    addFinalStates toks b =
      match parseAll toks with
      | some vs => .ok { b with final_states := b.final_states ++ vs }
      | none => .error .NonIntegralFinalState := by
  induction toks with
  | nil => intro b; simp [addFinalStates, parseAll]
  | cons tok toks ih =>
    intro b
    cases hp : parse_i32 tok with
    | none => simp [addFinalStates, parseAll, hp]
    | some v =>
      simp only [addFinalStates, hp]
      rw [ih (b.add_final_state v)]
      cases hm : parseAll toks with
      | none => simp [parseAll, hp, hm]
      | some vs =>
        simp [parseAll, hp, hm, DFABuilder.add_final_state, List.append_assoc]

/-- The header loop touches only the final-state list. -/
theorem addFinalStates_ok_fields {toks : List (List Char)} {b b' : DFABuilder}
    (h : addFinalStates toks b = .ok b') :
    b'.states = b.states ∧ b'.alphabet = b.alphabet := by
  rw [addFinalStates_spec] at h
  cases hm : parseAll toks with
  | none => rw [hm] at h; exact Except.noConfusion h
  | some vs =>
    rw [hm] at h
    cases h
    exact ⟨rfl, rfl⟩

/-- The only error the header loop produces is `NonIntegralFinalState`. -/
theorem addFinalStates_error {toks : List (List Char)} {b : DFABuilder}
    {e : DFABuilderError} (h : addFinalStates toks b = .error e) :
    e = .NonIntegralFinalState := by
  rw [addFinalStates_spec] at h
  cases hm : parseAll toks with
  | none =>
    rw [hm] at h
    cases h
    rfl
  | some vs => rw [hm] at h; exact Except.noConfusion h

/-! ## The transition loop -/

/-- `parse_line` never reports an empty stream. -/
theorem parse_line_ne_emptyStream (line : List Char) :
    parse_line line ≠ .error .EmptyStream := by
  unfold parse_line
  repeat' split
  all_goals simp

/-- `processLines` never reports an empty stream. -/
theorem processLines_ne_emptyStream (ls : List (List Char)) : ∀ b : DFABuilder,
    processLines ls b ≠ .error .EmptyStream := by
  induction ls with
  | nil => intro b h; exact Except.noConfusion h
  | cons l rest ih =>
    intro b
    rw [processLines]
    cases hp : parse_line l with
    | error e =>
      intro h
      injection h with he
      exact parse_line_ne_emptyStream l (by rw [hp, he])
    | ok r =>
      obtain ⟨q, w, t⟩ := r
      exact ih _

/-- The pure effect of a list of parsed transition lines on the builder. -/
def applyTriples : List (StateId × Char × StateId) → DFABuilder → DFABuilder
  | [], b => b
  | (q, w, t) :: rest, b => applyTriples rest (b.addTransitionLine q w t)

/-- Parse every transition line; `none` when any line fails. -/
def parseTriples : List (List Char) → Option (List (StateId × Char × StateId))
  | [] => some []
  | l :: ls =>
    match parse_line l, parseTriples ls with
    | .ok r, some rs => some (r :: rs)
    | _, _ => none

/-- When every line parses, the transition loop is `applyTriples` of the
parsed triples. -/
theorem processLines_parseTriples (ls : List (List Char)) :
    ∀ (ts : List (StateId × Char × StateId)) (b : DFABuilder),
    parseTriples ls = some ts → processLines ls b = .ok (applyTriples ts b) := by
  induction ls with
  | nil =>
    intro ts b h
    simp only [parseTriples, Option.some.injEq] at h
    subst h
    rfl
  | cons l rest ih =>
    intro ts b h
    cases hp : parse_line l with
    | error e => simp [parseTriples, hp] at h
    | ok r =>
      cases hm : parseTriples rest with
      | none => simp [parseTriples, hp, hm] at h
      | some rs =>
        simp only [parseTriples, hp, hm, Option.some.injEq] at h
        obtain ⟨q, w, t⟩ := r
        simp only [processLines, hp]
        rw [← h]
        simp only [applyTriples]
        exact ih rs _ hm

/-- The transition loop stops at the first failing line and returns its
error. -/
theorem processLines_error_at (pre : List (List Char)) :
    ∀ (b : DFABuilder) (bad : List Char) (post : List (List Char)) (e : DFABuilderError),
    (∀ l ∈ pre, (parse_line l).isOk = true) → parse_line bad = .error e →
    processLines (pre ++ bad :: post) b = .error e := by
  induction pre with
  | nil =>
    intro b bad post e _ hbad
    rw [List.nil_append, processLines, hbad]
  | cons l pre ih =>
    intro b bad post e hpre hbad
    have hok := hpre l (List.mem_cons_self l pre)
    rw [List.cons_append, processLines]
    cases hp : parse_line l with
    | error e' => rw [hp] at hok; exact Bool.noConfusion hok
    | ok r =>
      obtain ⟨q, w, t⟩ := r
      exact ih _ bad post e (fun x hx => hpre x (List.mem_cons_of_mem l hx)) hbad

/-! ## Invariants carried by the parsing pipeline -/

/-- Every symbol appearing in some state's transition map is in the
builder's alphabet. -/
def SymbolsClosed (b : DFABuilder) : Prop :=
  ∀ p ∈ b.states, ∀ q ∈ p.2.transitions, q.1 ∈ b.alphabet

/-- Every state's transition map has duplicate-free keys (as a `HashMap`
does by construction). -/
def TransNodup (b : DFABuilder) : Prop :=
  ∀ p ∈ b.states, (p.2.transitions.map Prod.fst).Nodup

/-- The alphabet only grows, and records the inserted symbol. -/
theorem mem_alphabet_addTransitionLine (b : DFABuilder) (q : StateId) (w : Char)
    (t : StateId) :
    w ∈ (b.addTransitionLine q w t).alphabet ∧
    ∀ a ∈ b.alphabet, a ∈ (b.addTransitionLine q w t).alphabet := by
  unfold DFABuilder.addTransitionLine
  by_cases hw : b.alphabet.contains w = true
  · rw [if_pos hw]
    exact ⟨List.elem_iff.mp hw, fun a ha => ha⟩
  · rw [if_neg hw]
    constructor
    · exact List.mem_append.mpr (Or.inr (List.mem_singleton.mpr rfl))
    · exact fun a ha => List.mem_append.mpr (Or.inl ha)

/-- One transition line preserves symbol closure. -/
theorem addTransitionLine_closed {b : DFABuilder} (hc : SymbolsClosed b)
    (q : StateId) (w : Char) (t : StateId) :
    SymbolsClosed (b.addTransitionLine q w t) := by
  have hmono := (mem_alphabet_addTransitionLine b q w t).2
  have hwmem := (mem_alphabet_addTransitionLine b q w t).1
  intro p hp qq hqq
  have hp' : p ∈ statesInsert b.states q
      (((lookupState b.states q).getD State.new).add_transition w t) := hp
  rcases mem_statesInsert hp' with hpe | hpold
  · rw [hpe] at hqq
    rcases mem_add_transition hqq with hqe | hqold
    · rw [hqe]
      exact hwmem
    · cases hl : lookupState b.states q with
      | none => rw [hl] at hqold; simp [State.new] at hqold
      | some s =>
        rw [hl] at hqold
        obtain ⟨pr, hpr, _, hpr2⟩ := lookupState_eq_some hl
        exact hmono _ (hc pr hpr qq (by rw [hpr2]; exact hqold))
  · exact hmono _ (hc p hpold qq hqq)

/-- The key list of `add_transition`. -/
theorem add_transition_keys (st : State) (w : Char) (t : StateId) :
    ((st.add_transition w t).transitions.map Prod.fst) =
      if st.transitions.any (fun p => p.1 == w) then st.transitions.map Prod.fst
      else st.transitions.map Prod.fst ++ [w] := by
  unfold State.add_transition
  by_cases hany : st.transitions.any (fun p => p.1 == w) = true
  · rw [if_pos hany, if_pos hany]
    simp only [List.map_map]
    apply List.map_congr_left
    intro p _
    by_cases hp : p.1 = w
    · simp [hp]
    · simp [hp]
  · rw [if_neg hany, if_neg hany]
    simp

/-- One transition line preserves duplicate-free transition keys. -/
theorem addTransitionLine_nodup {b : DFABuilder} (hn : TransNodup b)
    (q : StateId) (w : Char) (t : StateId) :
    TransNodup (b.addTransitionLine q w t) := by
  intro p hp
  have hp' : p ∈ statesInsert b.states q
      (((lookupState b.states q).getD State.new).add_transition w t) := hp
  rcases mem_statesInsert hp' with hpe | hpold
  · rw [hpe]
    have hbase : ((((lookupState b.states q).getD State.new)).transitions.map
        Prod.fst).Nodup := by
      cases hl : lookupState b.states q with
      | none => simp [State.new]
      | some s =>
        obtain ⟨pr, hpr, _, hpr2⟩ := lookupState_eq_some hl
        simpa [hpr2] using hn pr hpr
    rw [add_transition_keys]
    split
    · exact hbase
    · rename_i hany
      rw [List.nodup_append]
      refine ⟨hbase, List.nodup_singleton w, ?_⟩
      intro a ha hamem
      rw [List.mem_singleton] at hamem
      subst hamem
      rw [List.mem_map] at ha
      obtain ⟨x, hx, hxe⟩ := ha
      exact hany (List.any_eq_true.mpr ⟨x, hx, by simp [hxe]⟩)
  · exact hn p hpold

/-- The transition loop preserves both pipeline invariants. -/
theorem processLines_preserves (ls : List (List Char)) :
    ∀ {b b' : DFABuilder}, processLines ls b = .ok b' →
    SymbolsClosed b → TransNodup b → SymbolsClosed b' ∧ TransNodup b' := by
  induction ls with
  | nil =>
    intro b b' h hc hn
    cases h
    exact ⟨hc, hn⟩
  | cons l rest ih =>
    intro b b' h hc hn
    rw [processLines] at h
    cases hp : parse_line l with
    | error e => rw [hp] at h; exact Except.noConfusion h
    | ok r =>
      obtain ⟨q, w, t⟩ := r
      rw [hp] at h
      exact ih h (addTransitionLine_closed hc q w t) (addTransitionLine_nodup hn q w t)

/-- A builder returned by `fromStream` is symbol-closed with duplicate-free
transition keys. -/
theorem fromStream_ok_inv {input : List (List Char)} {b : DFABuilder}
    (h : DFABuilder.fromStream input = .ok b) :
    SymbolsClosed b ∧ TransNodup b := by
  cases htf : trimFilter input with
  | nil =>
    simp only [DFABuilder.fromStream, htf] at h
    exact Except.noConfusion h
  | cons header rest =>
    simp only [DFABuilder.fromStream, htf] at h
    cases ha : addFinalStates (splitOnSpace header) DFABuilder.default with
    | error e =>
      simp only [ha] at h
      exact Except.noConfusion h
    | ok b0 =>
      simp only [ha] at h
      have hf := addFinalStates_ok_fields ha
      have hc0 : SymbolsClosed b0 := by
        intro p hp
        rw [hf.1] at hp
        simp [DFABuilder.default] at hp
      have hn0 : TransNodup b0 := by
        intro p hp
        rw [hf.1] at hp
        simp [DFABuilder.default] at hp
      exact processLines_preserves rest h hc0 hn0

/-! ## Safety of the frozen automaton -/

/-- A frozen automaton is safe when state `0` exists and every transition
target exists: exactly what `DFA::get_state`'s `unwrap` needs. -/
def SafeDFA (d : DFA) : Prop :=
  (lookupState d.states 0).isSome = true ∧
  ∀ p ∈ d.states, ∀ q ∈ p.2.transitions, (lookupState d.states q.2).isSome = true

/-- With duplicate-free keys, membership determines the `find?` lookup. -/
theorem find?_of_mem_nodup {l : List (Char × StateId)} {c : Char} {t : StateId}
    (hmem : (c, t) ∈ l) (hnd : (l.map Prod.fst).Nodup) :
    l.find? (fun p => p.1 == c) = some (c, t) := by
  induction l with
  | nil => simp at hmem
  | cons p rest ih =>
    simp only [List.map_cons, List.nodup_cons] at hnd
    rcases List.mem_cons.mp hmem with he | hm
    · rw [← he]
      exact List.find?_cons_of_pos _ (by simp)
    · by_cases hp : p.1 = c
      · have : c ∈ rest.map Prod.fst := List.mem_map.mpr ⟨(c, t), hm, rfl⟩
        rw [hp] at hnd
        exact absurd this hnd.1
      · rw [List.find?_cons_of_neg _ (by simp [hp])]
        exact ih hm hnd.2

/-- The automaton frozen from a parsed builder is safe. -/
theorem pipeline_safe {input : List (List Char)} {b : DFABuilder} {d : DFA}
    (h1 : DFABuilder.fromStream input = .ok b) (h2 : b.build = some d) :
    SafeDFA d := by
  obtain ⟨hc, hn⟩ := fromStream_ok_inv h1
  have hinv := (build_isSome_iff b).mp (by rw [h2]; rfl)
  obtain ⟨_, hse⟩ := build_eq_some h2
  constructor
  · rw [hse]
    exact hinv.1
  · intro p hp q hq
    rw [hse] at hp ⊢
    have hcs : q.1 ∈ b.alphabet := hc p hp q hq
    have hfind : p.2.transition_for q.1 = some q.2 := by
      unfold State.transition_for
      rw [find?_of_mem_nodup (show (q.1, q.2) ∈ p.2.transitions by
        rw [Prod.mk.eta]; exact hq) (hn p hp)]
      rfl
    exact hinv.2.2.2 p hp q.1 hcs q.2 hfind

/-! ## The matcher -/

/-- A successful `transition_for` lookup exhibits an entry of the map. -/
theorem transition_for_mem {st : State} {c : Char} {t : StateId}
    (h : st.transition_for c = some t) : (c, t) ∈ st.transitions := by
  unfold State.transition_for at h
  cases hf : st.transitions.find? (fun p => p.1 == c) with
  | none => rw [hf] at h; simp at h
  | some pr =>
    rw [hf] at h
    have hk : pr.1 = c := by simpa using List.find?_some hf
    have hv : pr.2 = t := by simpa using h
    have hm := List.mem_of_find?_eq_some hf
    rw [← hk, ← hv, Prod.mk.eta]
    exact hm

/-- The matcher as the specification words it (§4.4): look up the
transition for (current state, character). -/
def specStep (d : DFA) (q : StateId) (c : Char) : Option StateId :=
  (lookupState d.states q).bind (fun st => st.transition_for c)

/-- The matcher's run as the specification words it: consume the characters
in order; `none` when some character had no transition. -/
def specRun (d : DFA) : StateId → List Char → Option StateId
  | q, [] => some q
  | q, c :: cs =>
    match specStep d q c with
    | some q2 => specRun d q2 cs
    | none => none

/-- Acceptance as the specification words it: start from state `0`; reject
(`false`, no error) when a character has no transition; after consuming all
characters accept iff the final state is a member of the final-state set. -/
def specAccept (d : DFA) (s : List Char) : Bool :=
  match specRun d 0 s with
  | some qf => d.final_states.contains qf
  | none => false

/-- On a safe automaton, the code's loop computes the specification's
acceptance from any live state. -/
theorem runFrom_eq_specRun {d : DFA} (hs : SafeDFA d) :
    ∀ (s : List Char) (q : StateId) (st : State), d.get_state q = some st →
    d.runFrom q st s = some (match specRun d q s with
      | some qf => d.final_states.contains qf
      | none => false) := by
  intro s
  induction s with
  | nil => intro q st _; simp [DFA.runFrom, specRun]
  | cons c cs ih =>
    intro q st h
    have hstep : specStep d q c = st.transition_for c := by
      unfold specStep
      rw [show lookupState d.states q = some st from h]
      rfl
    cases ht : st.transition_for c with
    | none => simp [DFA.runFrom, specRun, hstep, ht]
    | some t =>
      obtain ⟨pr, hpr, _, hpr2⟩ := lookupState_eq_some (show lookupState d.states q = some st from h)
      have htgt := hs.2 pr hpr (c, t) (by rw [hpr2]; exact transition_for_mem ht)
      cases hl : lookupState d.states t with
      | none => rw [hl] at htgt; simp at htgt
      | some nst =>
        have hstep2 : d.runFrom q st (c :: cs) = d.runFrom t nst cs := by
          simp only [DFA.runFrom, ht, DFA.get_state, hl]
        rw [hstep2, ih t nst hl]
        simp [specRun, hstep, ht]

/-- On a safe automaton, the loop never panics. -/
theorem runFrom_isSome {d : DFA} (hs : SafeDFA d) (s : List Char) (q : StateId)
    (st : State) (h : d.get_state q = some st) : (d.runFrom q st s).isSome = true := by
  rw [runFrom_eq_specRun hs s q st h]
  rfl

/-- On a safe automaton, `is_valid_string` agrees with the specification's
acceptance on non-empty strings. -/
theorem is_valid_string_eq_spec {d : DFA} (hs : SafeDFA d) (s : List Char)
    (hne : s ≠ []) : d.is_valid_string s = some (specAccept d s) := by
  unfold DFA.is_valid_string
  rw [if_neg (by simp [hne])]
  cases hl : d.get_state 0 with
  | none =>
    have := hs.1
    unfold DFA.get_state at hl
    rw [hl] at this
    simp at this
  | some st =>
    show d.runFrom 0 st s = some (specAccept d s)
    rw [runFrom_eq_specRun hs s 0 st hl]
    rfl

/-- On a safe automaton, `is_valid_string` never panics. -/
theorem is_valid_string_isSome {d : DFA} (hs : SafeDFA d) (s : List Char) :
    (d.is_valid_string s).isSome = true := by
  cases s with
  | nil => simp [DFA.is_valid_string]
  | cons c cs =>
    rw [is_valid_string_eq_spec hs (c :: cs) (by simp)]
    rfl

/-- All transition symbols of the automaton lie in `A`. -/
def DFASymbolsIn (d : DFA) (A : List Char) : Prop :=
  ∀ p ∈ d.states, ∀ q ∈ p.2.transitions, q.1 ∈ A

/-- A run over a string containing a symbol outside `A` returns `false`. -/
theorem runFrom_outside {d : DFA} (hs : SafeDFA d) {A : List Char}
    (hA : DFASymbolsIn d A) {c : Char} (hc : c ∉ A) :
    ∀ (s : List Char), c ∈ s → ∀ (q : StateId) (st : State),
    d.get_state q = some st → d.runFrom q st s = some false := by
  intro s
  induction s with
  | nil => intro h; simp at h
  | cons c' cs ih =>
    intro hmem q st h
    have hnotc : st.transition_for c = none := by
      cases ht : st.transition_for c with
      | none => rfl
      | some t =>
        obtain ⟨pr, hpr, _, hpr2⟩ := lookupState_eq_some (show lookupState d.states q = some st from h)
        exact absurd (hA pr hpr (c, t) (by rw [hpr2]; exact transition_for_mem ht)) hc
    by_cases hcc : c' = c
    · subst hcc
      simp [DFA.runFrom, hnotc]
    · rcases List.mem_cons.mp hmem with he | hm
      · exact absurd he.symm hcc
      · cases ht : st.transition_for c' with
        | none => simp [DFA.runFrom, ht]
        | some t =>
          obtain ⟨pr, hpr, _, hpr2⟩ := lookupState_eq_some (show lookupState d.states q = some st from h)
          have htgt := hs.2 pr hpr (c', t) (by rw [hpr2]; exact transition_for_mem ht)
          cases hl : lookupState d.states t with
          | none => rw [hl] at htgt; simp at htgt
          | some nst =>
            have hstep2 : d.runFrom q st (c' :: cs) = d.runFrom t nst cs := by
              simp only [DFA.runFrom, ht, DFA.get_state, hl]
            rw [hstep2]
            exact ih hm t nst hl

/-! ## `fromStream` error classification -/

/-- `fromStream` reports `EmptyStream` exactly when nothing remains after
trimming and blank filtering. -/
theorem fromStream_emptyStream_iff (input : List (List Char)) :
    DFABuilder.fromStream input = .error .EmptyStream ↔ trimFilter input = [] := by
  cases htf : trimFilter input with
  | nil => simp [DFABuilder.fromStream, htf]
  | cons header rest =>
    simp only [DFABuilder.fromStream, htf]
    constructor
    · intro h
      cases ha : addFinalStates (splitOnSpace header) DFABuilder.default with
      | error e =>
        simp only [ha] at h
        injection h with he
        have hne := addFinalStates_error ha
        rw [hne] at he
        exact DFABuilderError.noConfusion he
      | ok b0 =>
        simp only [ha] at h
        exact absurd h (processLines_ne_emptyStream rest b0)
    · intro h
      exact List.noConfusion h

/-! ## Last-write-wins for duplicate (state, symbol) pairs -/

/-- The transition recorded for `(q, w)` in a states map. -/
def transLookup (states : List (StateId × State)) (q : StateId) (w : Char) :
    Option StateId :=
  (lookupState states q).bind (fun st => st.transition_for w)

/-- The target of the last parsed triple for the pair `(q, w)`, if any. -/
def lastTarget (ts : List (StateId × Char × StateId)) (q : StateId) (w : Char) :
    Option StateId :=
  (ts.reverse.find? (fun x => x.1 == q && x.2.1 == w)).map (fun x => x.2.2)

/-- One transition line only rewrites the `(q0, w0)` entry. -/
theorem transLookup_addTransitionLine (b : DFABuilder) (q0 : StateId) (w0 : Char)
    (t0 : StateId) (q : StateId) (w : Char) :
    transLookup (b.addTransitionLine q0 w0 t0).states q w =
      if q = q0 ∧ w = w0 then some t0 else transLookup b.states q w := by
  unfold transLookup
  have hst : (b.addTransitionLine q0 w0 t0).states =
      statesInsert b.states q0
        (((lookupState b.states q0).getD State.new).add_transition w0 t0) := rfl
  rw [hst, lookupState_insert]
  by_cases hq : q = q0
  · rw [if_pos hq]
    show (((lookupState b.states q0).getD State.new).add_transition w0 t0).transition_for w = _
    rw [transition_for_add]
    by_cases hw : w = w0
    · rw [if_pos hw, if_pos ⟨hq, hw⟩]
    · rw [if_neg hw, if_neg (fun hc => hw hc.2)]
      subst hq
      cases hl : lookupState b.states q with
      | none => simp [State.new, State.transition_for]
      | some s => simp [hl]
  · rw [if_neg hq, if_neg (fun hc => hq hc.1)]

/-- `lastTarget` looks at the last occurrence first. -/
theorem lastTarget_cons (q0 : StateId) (w0 : Char) (t0 : StateId)
    (ts : List (StateId × Char × StateId)) (q : StateId) (w : Char) :
    lastTarget ((q0, w0, t0) :: ts) q w =
      match lastTarget ts q w with
      | some t => some t
      | none => if q0 = q ∧ w0 = w then some t0 else none := by
  unfold lastTarget
  rw [List.reverse_cons, List.find?_append]
  cases hf : ts.reverse.find? (fun y => y.1 == q && y.2.1 == w) with
  | some y => simp
  | none =>
    simp only [Option.none_or]
    by_cases hx : q0 = q ∧ w0 = w
    · rw [if_pos hx, List.find?_cons_of_pos _ (by simp [hx.1, hx.2])]
      rfl
    · rw [if_neg hx]
      have hpred : (((q0, w0, t0) : StateId × Char × StateId).1 == q &&
          (q0, w0, t0).2.1 == w) = false := by
        by_cases h1 : q0 = q
        · have h2 : ¬ w0 = w := fun h2 => hx ⟨h1, h2⟩
          simp [h1, h2]
        · simp [h1]
      rw [List.find?_cons_of_neg _ (by simp [hpred]), List.find?_nil]
      rfl

/-- After applying a triple list, the transition for `(q, w)` is the last
triple's target, or whatever the builder already had. -/
theorem transLookup_applyTriples (ts : List (StateId × Char × StateId)) :
    ∀ (b : DFABuilder) (q : StateId) (w : Char),
    transLookup (applyTriples ts b).states q w =
      match lastTarget ts q w with
      | some t => some t
      | none => transLookup b.states q w := by
  induction ts with
  | nil => intro b q w; simp [applyTriples, lastTarget]
  | cons x ts ih =>
    intro b q w
    obtain ⟨q0, w0, t0⟩ := x
    show transLookup (applyTriples ts (b.addTransitionLine q0 w0 t0)).states q w = _
    rw [ih, lastTarget_cons]
    cases hlt : lastTarget ts q w with
    | some t => rfl
    | none =>
      rw [transLookup_addTransitionLine]
      by_cases hqw : q = q0 ∧ w = w0
      · rw [if_pos hqw, if_pos ⟨hqw.1.symm, hqw.2.symm⟩]
      · rw [if_neg hqw, if_neg (fun hc => hqw ⟨hc.1.symm, hc.2.symm⟩)]

/-- `fromStream` after a successful header parse is the transition loop. -/
theorem fromStream_decomp {input : List (List Char)} {header : List Char}
    {rest : List (List Char)} {b0 : DFABuilder}
    (htf : trimFilter input = header :: rest)
    (ha : addFinalStates (splitOnSpace header) DFABuilder.default = .ok b0) :
    DFABuilder.fromStream input = processLines rest b0 := by
  simp only [DFABuilder.fromStream, htf, ha]

/-! ## UTF-8 length arithmetic -/

theorem foldl_utf8_shift (l : List Char) :
    ∀ a : Nat, l.foldl (fun n c => n + utf8SizeOf c) a =
      a + l.foldl (fun n c => n + utf8SizeOf c) 0 := by
  induction l with
  | nil => intro a; simp
  | cons c l ih =>
    intro a
    rw [List.foldl_cons, List.foldl_cons, ih (a + utf8SizeOf c), ih (0 + utf8SizeOf c)]
    omega

theorem utf8Len_cons (c : Char) (l : List Char) :
    utf8Len (c :: l) = utf8SizeOf c + utf8Len l := by
  unfold utf8Len
  rw [List.foldl_cons, foldl_utf8_shift]
  omega

theorem one_le_utf8SizeOf (c : Char) : 1 ≤ utf8SizeOf c := by
  unfold utf8SizeOf
  split_ifs <;> omega

theorem single_of_utf8Len_le_one {c1 : List Char} (hne : c1 ≠ [])
    (hle : utf8Len c1 ≤ 1) : ∃ ch : Char, c1 = [ch] := by
  cases c1 with
  | nil => exact absurd rfl hne
  | cons ch tl =>
    refine ⟨ch, ?_⟩
    cases tl with
    | nil => rfl
    | cons c2 t2 =>
      rw [utf8Len_cons, utf8Len_cons] at hle
      have h1 := one_le_utf8SizeOf ch
      have h2 := one_le_utf8SizeOf c2
      omega

/-! ## Example pipeline runs (used by the witnesses) -/

/-- The `(ab)*` description from the crate's documentation and tests. -/
def exLinesAB : List (List Char) :=
  [['0'], ['0', ' ', 'a', ' ', '1'], ['0', ' ', 'b', ' ', '2'],
   ['1', ' ', 'a', ' ', '2'], ['1', ' ', 'b', ' ', '0'],
   ['2', ' ', 'a', ' ', '2'], ['2', ' ', 'b', ' ', '2']]

/-- The builder produced by `fromStream` on `exLinesAB`. -/
def exBuilderAB : DFABuilder :=
  ⟨[0],
   [(0, ⟨[('a', 1), ('b', 2)]⟩), (1, ⟨[('a', 2), ('b', 0)]⟩),
    (2, ⟨[('a', 2), ('b', 2)]⟩)],
   ['a', 'b']⟩

/-- The frozen automaton produced by `build` on `exBuilderAB`. -/
def exDfaAB : DFA :=
  ⟨[0],
   [(0, ⟨[('a', 1), ('b', 2)]⟩), (1, ⟨[('a', 2), ('b', 0)]⟩),
    (2, ⟨[('a', 2), ('b', 2)]⟩)]⟩

/-! ## The claims -/

/-- **C1**: for every builder, `build()` returns a frozen automaton if and
only if all four invariants hold — (a) state `0` exists in the states
mapping, (b) the final-state set is non-empty, (c) every declared state has
a transition for every symbol of the inferred alphabet, (d) every such
transition's target exists in the states mapping — and every automaton it
returns satisfies all four invariants. -/
theorem build_returns_iff_invariants (b : DFABuilder) :
    (b.build.isSome = true ↔ BuilderInv b) ∧
    (∀ d : DFA, b.build = some d → AutomatonInv d b.alphabet) := by
  refine ⟨build_isSome_iff b, ?_⟩
  intro d hd
  have hinv := (build_isSome_iff b).mp (by rw [hd]; rfl)
  obtain ⟨hfe, hse⟩ := build_eq_some hd
  unfold AutomatonInv
  rw [hse, hfe]
  unfold BuilderInv at hinv
  exact hinv

theorem build_returns_iff_invariants_witness :
    AutomatonInv exDfaAB exBuilderAB.alphabet :=
  (build_returns_iff_invariants exBuilderAB).2 exDfaAB (by decide)

/-- **C2**: for every frozen automaton of the pipeline and every non-empty
string, `is_valid_string` starts at state `0`, looks up the transition for
(current state, character) for each character in order, returns `false`
immediately (without an error) when no transition exists, otherwise moves
to its target, and after consuming all characters returns `true` iff the
final state is a member of the final-state set — the behaviour captured by
`specAccept`. -/
theorem is_valid_string_follows_spec {input : List (List Char)} {b : DFABuilder}
    {d : DFA} (h1 : DFABuilder.fromStream input = .ok b) (h2 : b.build = some d)
    (s : List Char) (hne : s ≠ []) :
    d.is_valid_string s = some (specAccept d s) :=
  is_valid_string_eq_spec (pipeline_safe h1 h2) s hne

theorem is_valid_string_follows_spec_witness :
    exDfaAB.is_valid_string ['a', 'b'] = some (specAccept exDfaAB ['a', 'b']) :=
  @is_valid_string_follows_spec exLinesAB exBuilderAB exDfaAB
    (by decide) (by decide) ['a', 'b'] (by decide)

/-- **C3**: for every frozen automaton, `is_valid_string` on the empty
string returns `true` iff state `0` is a member of the final-state set, and
no transitions are taken (the states mapping is irrelevant). -/
theorem empty_string_acceptance (d : DFA) :
    (d.is_valid_string [] = some true ↔ (0 : StateId) ∈ d.final_states) ∧
    (∀ states2 : List (StateId × State),
      (DFA.mk d.final_states states2).is_valid_string [] = d.is_valid_string []) := by
  constructor
  · have he : d.is_valid_string [] = some (d.final_states.contains 0) := rfl
    rw [he]
    constructor
    · intro h
      injection h with h'
      exact List.elem_iff.mp h'
    · intro h
      rw [show d.final_states.contains 0 = true from List.elem_iff.mpr h]
  · intro states2
    rfl

/-- **C6**: for every frozen automaton of the pipeline and every symbol
outside the builder's inferred alphabet, `is_valid_string` on any string
containing that symbol returns `false`. -/
theorem outside_alphabet_rejected {input : List (List Char)} {b : DFABuilder}
    {d : DFA} (h1 : DFABuilder.fromStream input = .ok b) (h2 : b.build = some d)
    {c : Char} (hc : c ∉ b.alphabet) (s : List Char) (hs : c ∈ s) :
    d.is_valid_string s = some false := by
  have hsafe := pipeline_safe h1 h2
  have hA : DFASymbolsIn d b.alphabet := by
    intro p hp q hq
    obtain ⟨hcl, _⟩ := fromStream_ok_inv h1
    obtain ⟨_, hse⟩ := build_eq_some h2
    rw [hse] at hp
    exact hcl p hp q hq
  have hne : s ≠ [] := by
    intro h
    rw [h] at hs
    simp at hs
  unfold DFA.is_valid_string
  rw [if_neg (by simp [hne])]
  cases hl : d.get_state 0 with
  | none =>
    have h0 := hsafe.1
    unfold DFA.get_state at hl
    rw [hl] at h0
    simp at h0
  | some st =>
    show d.runFrom 0 st s = some false
    exact runFrom_outside hsafe hA hc s hs 0 st hl

theorem outside_alphabet_rejected_witness :
    exDfaAB.is_valid_string ['a', 'x'] = some false :=
  @outside_alphabet_rejected exLinesAB exBuilderAB exDfaAB
    (by decide) (by decide) 'x' (by decide) ['a', 'x'] (by decide)

/-- **C9**: for every automaton produced by a successful `fromStream`
followed by a successful `build` and every input string, every internal
state lookup succeeds: the `unwrap` in `get_state` is never reached with an
absent state id, so `is_valid_string` never panics. -/
theorem matcher_never_panics {input : List (List Char)} {b : DFABuilder} {d : DFA}
    (h1 : DFABuilder.fromStream input = .ok b) (h2 : b.build = some d)
    (s : List Char) : (d.is_valid_string s).isSome = true :=
  is_valid_string_isSome (pipeline_safe h1 h2) s

theorem matcher_never_panics_witness :
    (exDfaAB.is_valid_string ['b', 'a']).isSome = true :=
  @matcher_never_panics exLinesAB exBuilderAB exDfaAB
    (by decide) (by decide) ['b', 'a']

/-- Input with header `5` and single transition `0 a 0` (claim C10). -/
def exInput10 : List (List Char) := [['5'], ['0', ' ', 'a', ' ', '0']]

/-- The builder `fromStream` produces on `exInput10`. -/
def exBuilder10 : DFABuilder := ⟨[5], [(0, ⟨[('a', 0)]⟩)], ['a']⟩

/-- The automaton `build` produces on `exBuilder10`: its final state `5` is
not a declared state. -/
def exDfa10 : DFA := ⟨[5], [(0, ⟨[('a', 0)]⟩)]⟩

/-- **C10**: `build()` does not require final-state ids to be declared
states: the input with header `5` and transition `0 a 0` passes both
`fromStream` and `build` with final state `5` absent from the states
mapping, and `is_valid_string` still returns a boolean for every query
string (rejecting strings whose run cannot end in the absent state). -/
theorem undeclared_final_state_buildable :
    DFABuilder.fromStream exInput10 = .ok exBuilder10 ∧
    exBuilder10.build = some exDfa10 ∧
    lookupState exDfa10.states 5 = none ∧
    (5 : StateId) ∈ exDfa10.final_states ∧
    (∀ s : List Char, (exDfa10.is_valid_string s).isSome = true) ∧
    exDfa10.is_valid_string ['a'] = some false := by
  refine ⟨by decide, by decide, by decide, by decide, ?_, by decide⟩
  exact fun s => @is_valid_string_isSome exDfa10 (by unfold SafeDFA; decide) s

/-- Split at every whitespace character (tabs included), keeping empty
tokens; auxiliary for the tokenisation the specification describes. -/
def splitOnWhite : List Char → List (List Char)
  | [] => [[]]
  | c :: cs =>
    if isWhite c then [] :: splitOnWhite cs
    else
      match splitOnWhite cs with
      | t :: ts => (c :: t) :: ts
      | [] => [[c]]

/-- The header tokenisation as the specification words it: split on runs of
whitespace, with repeated interior whitespace collapsed, producing no empty
tokens. -/
def splitWhitespaceRuns (l : List Char) : List (List Char) :=
  (splitOnWhite l).filter (fun x => !x.isEmpty)

/-- **C4, counterexample**: on the header `"1  2"` (two interior spaces)
every whitespace-run token is an integer, yet `fromStream` fails with
`NonIntegralFinalState`: the header is split on single spaces without
collapsing, so the doubled space produces an empty token. -/
theorem header_whitespace_counterexample :
    splitWhitespaceRuns ['1', ' ', ' ', '2'] = [['1'], ['2']] ∧
    (splitWhitespaceRuns ['1', ' ', ' ', '2']).all
      (fun t => (parse_i32 t).isSome) = true ∧
    splitOnSpace ['1', ' ', ' ', '2'] = [['1'], [], ['2']] ∧
    DFABuilder.fromStream [['1', ' ', ' ', '2']] =
      .error DFABuilderError.NonIntegralFinalState := by
  decide

/-- **C4, amended**: `fromStream` splits the trimmed header on single space
characters, keeping the empty tokens produced by repeated interior
whitespace; exactly when every such token parses as an `i32`, the token
list becomes the final-state set and parsing proceeds to the transition
lines, and otherwise — in particular whenever the header has two adjacent
interior spaces, or a tab — it fails with `NonIntegralFinalState`. -/
theorem header_tokens_amended {input : List (List Char)} {header : List Char}
    {rest : List (List Char)} (htf : trimFilter input = header :: rest) :
    (parseAll (splitOnSpace header) = none →
      DFABuilder.fromStream input = .error .NonIntegralFinalState) ∧
    (∀ finals : List Int, parseAll (splitOnSpace header) = some finals →
      ∃ b0 : DFABuilder,
        addFinalStates (splitOnSpace header) DFABuilder.default = .ok b0 ∧
        b0.final_states = finals ∧
        DFABuilder.fromStream input = processLines rest b0) := by
  constructor
  · intro hp
    simp only [DFABuilder.fromStream, htf]
    rw [addFinalStates_spec, hp]
  · intro finals hp
    refine ⟨{ DFABuilder.default with
      final_states := DFABuilder.default.final_states ++ finals }, ?_, ?_, ?_⟩
    · rw [addFinalStates_spec, hp]
    · simp [DFABuilder.default]
    · simp only [DFABuilder.fromStream, htf]
      rw [addFinalStates_spec, hp]

theorem header_tokens_amended_witness :
    DFABuilder.fromStream [['x']] = .error DFABuilderError.NonIntegralFinalState :=
  (@header_tokens_amended [['x']] ['x'] [] (by decide)).1 (by decide)

/-- **C5, counterexample**: the transition line `"0 é 1"` splits into three
tokens, the first and third parse as integers, and the symbol token is
exactly one character — yet `parse_line` fails with `ExpectedChar`, because
the source checks the token's UTF-8 byte length (`str::len`), which is 2
for `é`. -/
theorem symbol_char_counterexample :
    (splitOnSpace ['0', ' ', 'é', ' ', '1']).filter
      (fun x => !(trimChars x).isEmpty) = [['0'], ['é'], ['1']] ∧
    (['é'] : List Char).length = 1 ∧
    parse_i32 ['0'] = some 0 ∧ parse_i32 ['1'] = some 1 ∧
    parse_line ['0', ' ', 'é', ' ', '1'] = .error DFABuilderError.ExpectedChar := by
  decide

/-- **C5, amended**: for every transition line splitting into exactly three
tokens whose first token parses as an integer, parsing fails with
`ExpectedChar` if and only if the symbol token's UTF-8 byte length exceeds
one — that is, the token has more than one character or is a single
non-ASCII character; when the byte length is one (a single ASCII character)
and the third token parses as an integer, parsing succeeds with
`(from-state id, symbol, to-state id)`. -/
theorem symbol_token_byte_length {line c0 c1 c2 : List Char}
    (hsplit : (splitOnSpace line).filter (fun x => !(trimChars x).isEmpty)
      = [c0, c1, c2])
    {n0 : Int} (h0 : parse_i32 c0 = some n0) :
    (parse_line line = .error .ExpectedChar ↔ utf8Len c1 > 1) ∧
    (utf8Len c1 ≤ 1 → ∀ n2 : Int, parse_i32 c2 = some n2 →
      ∃ ch : Char, c1 = [ch] ∧ parse_line line = .ok (n0, ch, n2)) := by
  have hc1mem : c1 ∈ (splitOnSpace line).filter (fun x => !(trimChars x).isEmpty) := by
    rw [hsplit]
    simp
  have hc1pred := List.of_mem_filter hc1mem
  have hc1ne : c1 ≠ [] := by
    intro h
    rw [h] at hc1pred
    simp [trimChars] at hc1pred
  obtain ⟨ch, tl, rfl⟩ : ∃ (ch : Char) (tl : List Char), c1 = ch :: tl := by
    cases c1 with
    | nil => exact absurd rfl hc1ne
    | cons ch tl => exact ⟨ch, tl, rfl⟩
  have hpl : parse_line line =
      (if utf8Len (ch :: tl) > 1 then .error .ExpectedChar
       else
        match parse_i32 c2 with
        | none => .error .ExptectedInt
        | some to_state => .ok (n0, ch, to_state)) := by
    simp only [parse_line, hsplit, h0]
  constructor
  · by_cases hlen : utf8Len (ch :: tl) > 1
    · rw [hpl, if_pos hlen]
      simp [hlen]
    · rw [hpl, if_neg hlen]
      simp only [hlen, iff_false]
      cases hp2 : parse_i32 c2 with
      | none => simp
      | some n2 => simp
  · intro hle n2 h2
    obtain ⟨ch2, hch⟩ := single_of_utf8Len_le_one hc1ne hle
    injection hch with hch1 hch2
    subst hch1
    subst hch2
    exact ⟨ch, rfl, by rw [hpl, if_neg (by omega), h2]⟩

/-- Witness for the amended C5: `"0 ab 1"` has a two-character symbol token
and is rejected with `ExpectedChar`. -/
theorem symbol_token_byte_length_witness :
    parse_line ['0', ' ', 'a', 'b', ' ', '1'] = .error DFABuilderError.ExpectedChar :=
  (@symbol_token_byte_length ['0', ' ', 'a', 'b', ' ', '1'] ['0'] ['a', 'b'] ['1']
    (by decide) 0 (by decide)).1.mpr (by decide)

/-- **C7**: `fromStream` fails with `EmptyStream` iff nothing remains after
trimming and blank filtering; otherwise, when the header parses and some
later transition line fails, it stops at the first failing line and returns
that line's error (no builder, no skipping). -/
theorem first_error_semantics (input : List (List Char)) :
    (DFABuilder.fromStream input = .error .EmptyStream ↔ trimFilter input = []) ∧
    (∀ (header : List Char) (rest pre post : List (List Char)) (bad : List Char)
      (b0 : DFABuilder) (e : DFABuilderError),
      trimFilter input = header :: rest →
      addFinalStates (splitOnSpace header) DFABuilder.default = .ok b0 →
      rest = pre ++ bad :: post →
      (∀ l ∈ pre, (parse_line l).isOk = true) →
      parse_line bad = .error e →
      DFABuilder.fromStream input = .error e) := by
  refine ⟨fromStream_emptyStream_iff input, ?_⟩
  intro header rest pre post bad b0 e htf ha hsplit hpre hbad
  rw [fromStream_decomp htf ha, hsplit]
  exact processLines_error_at pre b0 bad post e hpre hbad

/-- Input whose third line `"0 a"` is malformed (claim C7's witness). -/
def exInput7 : List (List Char) :=
  [['0'], ['0', ' ', 'a', ' ', '0'], ['0', ' ', 'a']]

theorem first_error_semantics_witness :
    DFABuilder.fromStream exInput7 =
      .error (DFABuilderError.MalformedLine "Expected 3 components in transition line") :=
  (first_error_semantics exInput7).2 ['0']
    [['0', ' ', 'a', ' ', '0'], ['0', ' ', 'a']] [['0', ' ', 'a', ' ', '0']] []
    ['0', ' ', 'a'] ⟨[0], [], []⟩
    (DFABuilderError.MalformedLine "Expected 3 components in transition line")
    (by decide) (by decide) (by decide) (by decide) (by decide)

/-- **C8**: when the transition lines contain the same (from-state, symbol)
pair more than once, `fromStream` still succeeds and the later line's
target overwrites the earlier one: the state's transition for that symbol
is the target of the last such line. -/
theorem last_write_wins {input : List (List Char)} {header : List Char}
    {rest : List (List Char)} {b0 : DFABuilder}
    {ts : List (StateId × Char × StateId)} (q : StateId) (w : Char)
    (htf : trimFilter input = header :: rest)
    (ha : addFinalStates (splitOnSpace header) DFABuilder.default = .ok b0)
    (hts : parseTriples rest = some ts)
    (hdup : 2 ≤ (ts.filter (fun x => x.1 == q && x.2.1 == w)).length) :
    ∃ (b' : DFABuilder) (t : StateId), DFABuilder.fromStream input = .ok b' ∧
      lastTarget ts q w = some t ∧ transLookup b'.states q w = some t := by
  have hfrom : DFABuilder.fromStream input = .ok (applyTriples ts b0) := by
    rw [fromStream_decomp htf ha]
    exact processLines_parseTriples rest ts b0 hts
  have hex : ∃ y ∈ ts, (y.1 == q && y.2.1 == w) = true := by
    have hne : ts.filter (fun x => x.1 == q && x.2.1 == w) ≠ [] := by
      intro h
      rw [h] at hdup
      simp at hdup
    obtain ⟨y, hy⟩ := List.exists_mem_of_ne_nil _ hne
    exact ⟨y, (List.mem_filter.mp hy).1, (List.mem_filter.mp hy).2⟩
  have hsome : (lastTarget ts q w).isSome = true := by
    unfold lastTarget
    obtain ⟨y, hy, hpy⟩ := hex
    cases hf : ts.reverse.find? (fun x => x.1 == q && x.2.1 == w) with
    | none =>
      rw [List.find?_eq_none] at hf
      exact absurd hpy (hf y (List.mem_reverse.mpr hy))
    | some z => rfl
  cases hlt : lastTarget ts q w with
  | none =>
    rw [hlt] at hsome
    simp at hsome
  | some t =>
    refine ⟨applyTriples ts b0, t, hfrom, rfl, ?_⟩
    rw [transLookup_applyTriples, hlt]

/-- Input with two transitions for the pair `(0, a)` (claim C8's witness). -/
def exInput8 : List (List Char) :=
  [['0'], ['0', ' ', 'a', ' ', '1'], ['0', ' ', 'a', ' ', '2']]

/-- The builder `fromStream` produces on `exInput8`: the transition of
state `0` on `a` is the later target `2`. -/
def exBuilder8 : DFABuilder := ⟨[0], [(0, ⟨[('a', 2)]⟩)], ['a']⟩

theorem last_write_wins_witness : transLookup exBuilder8.states 0 'a' = some 2 := by
  obtain ⟨b', t, hb, hl, ht⟩ := @last_write_wins exInput8 ['0']
    [['0', ' ', 'a', ' ', '1'], ['0', ' ', 'a', ' ', '2']] ⟨[0], [], []⟩
    [(0, 'a', 1), (0, 'a', 2)] 0 'a'
    (by decide) (by decide) (by decide) (by decide)
  rw [show DFABuilder.fromStream exInput8 = .ok exBuilder8 from by decide] at hb
  injection hb with hb'
  rw [show lastTarget [(0, 'a', 1), (0, 'a', 2)] 0 'a' = some 2 from by decide] at hl
  injection hl with hl'
  rw [← hb', ← hl'] at ht
  exact ht

end DfaMod
